import Mathlib

set_option maxHeartbeats 1000000

/-!
Verification development for the 7lfix refactoring tool (the second, current
version of the program in the repository).  The tool parses a set of C source
files of the Plan 9 arm64 linker, builds a symbol catalog and a bidirectional
dependency graph, prunes the program to the part reachable from a start-symbol
set, and applies a sequence of AST transformations (static-ization, renaming,
parameter threading) before re-emitting the program per destination file.

The embedding below models the tool's own data structures and passes:
  * Go maps become association lists (first-match lookup, unique keys);
  * `*cc.Decl` pointers become `Nat` identifiers into a `store`
    association list that plays the role of the heap holding the parsed tree;
  * the parts of the `cc` AST the tool inspects (declaration name, storage,
    type kind, parameter declarations, body/initializer expressions,
    expression op, literal text, resolved declaration) are modelled by
    `CDecl`/`CType`/`CExpr`;
  * `log.Fatal` aborts (and panics) are modelled by `Option`-valued passes
    returning `none`.
-/

namespace SevenLfix

/-- Association-list lookup modelling Go map indexing (`m[k]`); keys are
unique in every list we build, so first-match semantics coincides with Go. -/
def lookA {κ α : Type} [DecidableEq κ] : List (κ × α) → κ → Option α
  | [], _ => none
  | kv :: rest, k => if k = kv.1 then some kv.2 else lookA rest k

/-- Go `delete(m, k)`. -/
def delA {κ α : Type} [DecidableEq κ] (m : List (κ × α)) (k : κ) : List (κ × α) :=
  m.filter (fun kv => ! decide (kv.1 = k))

/-- Go `m[k] = v`: overwrite the entry if the key is present, else add it. -/
def putA {κ α : Type} [DecidableEq κ] (m : List (κ × α)) (k : κ) (v : α) : List (κ × α) :=
  if (lookA m k).isSome then m.map (fun kv => if kv.1 = k then (k, v) else kv)
  else m ++ [(k, v)]

/-- Overwrite the value stored under an existing key (a write through a
`*cc.Decl` pointer: the callers only use it with keys that are present). -/
def updA {κ α : Type} [DecidableEq κ] (m : List (κ × α)) (k : κ) (v : α) : List (κ × α) :=
  m.map (fun kv => if kv.1 = k then (k, v) else kv)

/-- Edge-set lookup: a missing key behaves as the empty set, like ranging
over a `nil` Go map. -/
def getA (m : List (Nat × List Nat)) (k : Nat) : List Nat :=
  (lookA m k).getD []

/-- Insertion into a Go map-backed set (`set[x] = true`): no duplicates. -/
def insertMem (l : List Nat) (x : Nat) : List Nat :=
  if x ∈ l then l else l ++ [x]

/-- Type kinds the tool distinguishes (`cc.Func`, `cc.Ptr`, `cc.Void`,
`cc.TypedefType`, `cc.Enum`); every other kind behaves alike here. -/
inductive TKind where
  | func | ptr | void | typedefType | enum | other
deriving DecidableEq

/-- Storage class: the tool only ever writes `cc.Static`. -/
inductive StorageK where
  | auto | static
deriving DecidableEq

/-- Expression operators the tool dispatches on (`cc.Name`, `cc.Addr`,
`cc.Call`); every other operator is passed over. -/
inductive ExprOp where
  | name | addr | call | other
deriving DecidableEq

/-- A `cc.Expr` node: operator, literal text (`Text`), operand (`Left`),
operand list (`List`), and, as a symbol identifier, the resolved declaration
(`XDecl`, `none` when unresolved). -/
inductive CExpr where
  | mk (op : ExprOp) (text : String) (left : Option CExpr) (args : List CExpr)
      (xdecl : Option Nat)

mutual
/-- A `cc.Type`: kind, name, parameter declarations (`Decls`, for function
types), and base type (for pointers). -/
inductive CType where
  | mk (kind : TKind) (tname : String) (decls : List CDecl) (base : Option CType)
/-- A `cc.Decl`: name, storage, type, body (function bodies are modelled as
the list of expression trees a `cc.Preorder` walk visits inside them),
initializer expressions, and the file of its source span. -/
inductive CDecl where
  | mk (dname : String) (storage : StorageK) (ctype : CType)
      (body : Option (List CExpr)) (init : Option (List CExpr)) (spanFile : String)
end

def CExpr.op : CExpr → ExprOp
  | .mk o _ _ _ _ => o

def CExpr.text : CExpr → String
  | .mk _ t _ _ _ => t

def CExpr.left : CExpr → Option CExpr
  | .mk _ _ l _ _ => l

def CExpr.args : CExpr → List CExpr
  | .mk _ _ _ a _ => a

def CExpr.xdecl : CExpr → Option Nat
  | .mk _ _ _ _ d => d

def CType.kind : CType → TKind
  | .mk k _ _ _ => k

def CType.tname : CType → String
  | .mk _ n _ _ => n

def CType.decls : CType → List CDecl
  | .mk _ _ d _ => d

def CType.base : CType → Option CType
  | .mk _ _ _ b => b

/-- Model of `cc.Type.Is(k)`: kind equality. -/
def CType.is (t : CType) (k : TKind) : Bool :=
  t.kind = k

def CDecl.dname : CDecl → String
  | .mk n _ _ _ _ _ => n

def CDecl.storage : CDecl → StorageK
  | .mk _ s _ _ _ _ => s

def CDecl.ctype : CDecl → CType
  | .mk _ _ t _ _ _ => t

def CDecl.body : CDecl → Option (List CExpr)
  | .mk _ _ _ b _ _ => b

def CDecl.init : CDecl → Option (List CExpr)
  | .mk _ _ _ _ i _ => i

def CDecl.spanFile : CDecl → String
  | .mk _ _ _ _ _ f => f

/-- Replace a declaration's parameter list (`sym.Type.Decls = ...`). -/
def CDecl.setDecls : CDecl → List CDecl → CDecl
  | .mk n s (.mk k tn _ b) bd i f, ds => .mk n s (.mk k tn ds b) bd i f

/-- Replace a declaration's name (`sym.Name = ...`). -/
def CDecl.setName : CDecl → String → CDecl
  | .mk _ s t bd i f, n => .mk n s t bd i f

/-- Replace a declaration's storage (`sym.Storage = cc.Static`). -/
def CDecl.setStorage : CDecl → StorageK → CDecl
  | .mk n _ t bd i f, s => .mk n s t bd i f

/-- Replace a declaration's body (`nfn.Body = nil`). -/
def CDecl.setBody : CDecl → Option (List CExpr) → CDecl
  | .mk n s t _ i f, bd => .mk n s t bd i f

mutual
/-- Apply a text-rewriting visitor at every node of an expression tree,
the node itself first, then its children — the shape of `cc.Preorder`
with a visitor that only assigns `expr.Text`. -/
def rwText (g : CExpr → String) : CExpr → CExpr
  | .mk op t l xs d =>
    .mk op (g (.mk op t l xs d))
      (match l with
       | none => none
       | some e => some (rwText g e))
      (rwTextList g xs) d

/-- Apply `rwText` to each element of an operand list. -/
def rwTextList (g : CExpr → String) : List CExpr → List CExpr
  | [] => []
  | e :: es => rwText g e :: rwTextList g es
end

/-- One step into an expression tree: into the operand (`Left`) or into the
`n`-th element of the operand list. -/
inductive Step where
  | intoLeft
  | intoArg (n : Nat)

/-- The subtree of an expression at a path of steps. -/
def getPath : CExpr → List Step → Option CExpr
  | e, [] => some e
  | e, .intoLeft :: p =>
    match e.left with
    | none => none
    | some l => getPath l p
  | e, .intoArg n :: p =>
    match e.args.get? n with
    | none => none
    | some a => getPath a p

/-- The keys of an edge map. -/
def keysOf (m : List (Nat × List Nat)) : Finset Nat :=
  (m.map Prod.fst).toFinset

/-- The shared visited-set traversal: mark every pending symbol, skipping
already-marked (and excluded) ones, and push the symbol's edge targets. -/
def dfsEx (fw : List (Nat × List Nat)) (excl : Nat → Bool) :
    List Nat → List Nat → List Nat
  | [], visited => visited
  | sym :: rest, visited =>
    if sym ∈ visited then dfsEx fw excl rest visited
    else if excl sym then dfsEx fw excl rest visited
    else dfsEx fw excl (getA fw sym ++ rest) (sym :: visited)
termination_by roots visited => ((keysOf fw \ visited.toFinset).card, roots.length)
decreasing_by
  · exact Prod.Lex.right _ (Nat.lt_succ_self _)
  · exact Prod.Lex.right _ (Nat.lt_succ_self _)
  · rename_i hmem _hexcl
    by_cases hk : sym ∈ keysOf fw
    · apply Prod.Lex.left
      rw [List.toFinset_cons, Finset.sdiff_insert]
      exact Finset.card_erase_lt_of_mem
        (Finset.mem_sdiff.mpr ⟨hk, by simpa using hmem⟩)
    · have h1 : keysOf fw \ (sym :: visited).toFinset = keysOf fw \ visited.toFinset := by
        rw [List.toFinset_cons, Finset.sdiff_insert,
          Finset.erase_eq_of_not_mem (fun hc => hk (Finset.mem_sdiff.mp hc).1)]
      have hga : ∀ m : List (Nat × List Nat), sym ∉ keysOf m → getA m sym = [] := by
        intro m hm
        induction m with
        | nil => rfl
        | cons kv rest ih =>
          simp only [keysOf, List.map_cons, List.toFinset_cons, Finset.mem_insert,
            not_or] at hm
          have hne : ¬ sym = kv.1 := hm.1
          simp only [getA, lookA, if_neg hne]
          exact ih (by simpa [keysOf] using hm.2)
      rw [hga fw hk, List.nil_append, h1]
      exact Prod.Lex.right _ (Nat.lt_succ_self _)

/-- One edge of a dependency map: `b` is a member of the edge set of `a`. -/
def EdgeR (fw : List (Nat × List Nat)) (a b : Nat) : Prop :=
  b ∈ getA fw a

/-- Reachability: `b` is transitively reachable from `a` along the edges of `fw`. -/
def Reaches (fw : List (Nat × List Nat)) (a b : Nat) : Prop :=
  Relation.ReflTransGen (EdgeR fw) a b

def TKind.str : TKind → String
  | .func => "func" | .ptr => "ptr" | .void => "void"
  | .typedefType => "typedef" | .enum => "enum" | .other => "k"

def StorageK.str : StorageK → String
  | .auto => "" | .static => "static "

def ExprOp.str : ExprOp → String
  | .name => "n" | .addr => "&" | .call => "c" | .other => "o"

mutual
def ppExpr : CExpr → String
  | .mk op t l xs d =>
    op.str ++ "[" ++ t ++ "](" ++
      (match l with
       | none => ""
       | some e => ppExpr e) ++ ")(" ++ ppExprList xs ++ ")" ++
      (match d with
       | none => ""
       | some n => "@" ++ toString n)

def ppExprList : List CExpr → String
  | [] => ""
  | e :: es => ppExpr e ++ "," ++ ppExprList es
end

mutual
def ppType : CType → String
  | .mk k n ds b =>
    k.str ++ "<" ++ n ++ ">(" ++ ppDeclList ds ++ ")" ++
      (match b with
       | none => ""
       | some t => "*" ++ ppType t)

def ppDeclList : List CDecl → String
  | [] => ""
  | d :: ds => ppDecl d ++ ";" ++ ppDeclList ds

def ppDecl : CDecl → String
  | .mk n s t bd i f =>
    s.str ++ ppType t ++ " " ++ n ++
      (match bd with
       | none => ""
       | some es => "\x7b" ++ ppExprList es ++ "\x7d") ++
      (match i with
       | none => ""
       | some es => "=" ++ ppExprList es) ++ "/*" ++ f ++ "*/"
end

/-- The tool's `prog` structure.  The parsed tree's declarations live in
`store` (symbol identifier to declaration, playing the role of the heap
behind `*cc.Decl` pointers); `symlist`, `symmap`, `symtab`, `forward`,
`reverse` and `filetab` mirror the Go fields, with symbol sets as
duplicate-free lists. -/
structure PState where
  store : List (Nat × CDecl)
  symlist : List Nat
  symmap : List Nat
  symtab : List (String × Nat)
  forward : List (Nat × List Nat)
  reverse : List (Nat × List Nat)
  filetab : List (String × List Nat)

/-- Model of `prog.trim`: keep only the symbols of `subset` in every index structure;
`forward` loses the keys outside the subset, `reverse` additionally filters
its edge sets, and `filetab` filters its per-file sets.  The parsed tree
(`store`) is not touched, matching the Go code. -/
def trim (p : PState) (subset : List Nat) : PState :=
  let newsymlist := p.symlist.filter (fun s => decide (s ∈ subset))
  { p with
    symlist := newsymlist
    symmap := newsymlist
    symtab := p.symtab.filter (fun kv => decide (kv.2 ∈ subset))
    forward := p.forward.filter (fun kv => decide (kv.1 ∈ subset))
    reverse := (p.reverse.filter (fun kv => decide (kv.1 ∈ subset))).map
      (fun kv => (kv.1, kv.2.filter (fun s => decide (s ∈ subset))))
    filetab := p.filetab.map
      (fun kv => (kv.1, kv.2.filter (fun s => decide (s ∈ subset)))) }

/-- Resolve every start name in the symbol table; `none` models the
`log.Fatalf("symbol %q not found", ...)` abort on the first miss. -/
def resolveAll (t : List (String × Nat)) : List String → Option (List Nat)
  | [] => some []
  | n :: ns =>
    match lookA t n, resolveAll t ns with
    | some s, some l => some (s :: l)
    | _, _ => none

/-- Model of `prog.extract`: resolve the start names (fatal on a miss), mark the
forward closure of the resolved symbols, and trim the program to it. -/
def extract (p : PState) (start : List String) : Option PState :=
  match resolveAll p.symtab start with
  | none => none
  | some roots => some (trim p (dfsEx p.forward (fun _ => false) roots []))

/-- A symbol is reachable from the start-name set: some start name resolves
to a root that reaches it along forward edges. -/
def ReachableFrom (p : PState) (start : List String) (x : Nat) : Prop :=
  ∃ n ∈ start, ∃ r, lookA p.symtab n = some r ∧ Reaches p.forward r x

/-- Graph symmetry: `b ∈ forward[a] ⇔ a ∈ reverse[b]`. -/
def Symm (fw rv : List (Nat × List Nat)) : Prop :=
  ∀ a b, b ∈ getA fw a ↔ a ∈ getA rv b

/-- The dependency-graph construction of `NewProg`: the first walk gives
every top-level symbol (`univ`) an empty `forward` and `reverse` set; the
second walk produces a sequence of reference events `(curfunc, sym)`, and
each event sets `forward[curfunc][sym] = true` and
`reverse[sym][curfunc] = true` together.  (Go would panic on an event whose
endpoints were not initialized, so the theorems assume they lie in `univ`;
in `NewProg` the source is always a tracked function with a body and the
target a `symtab`/`symmap` hit.) -/
def buildGraph (univ : List Nat) (edges : List (Nat × Nat)) :
    List (Nat × List Nat) × List (Nat × List Nat) :=
  edges.foldl
    (fun g e =>
      (updA g.1 e.1 (insertMem (getA g.1 e.1) e.2),
       updA g.2 e.2 (insertMem (getA g.2 e.2) e.1)))
    (univ.map (fun x => (x, [])), univ.map (fun x => (x, [])))

/-- First loop of `prog.rename`: walk `prog.symlist` and overwrite the
name of every declaration whose current name is a key of `newnames`. -/
def renameDecls (newnames : List (String × String)) (store : List (Nat × CDecl))
    (symlist : List Nat) : List (Nat × CDecl) :=
  symlist.foldl
    (fun st id =>
      match lookA st id with
      | none => st
      | some d =>
        match lookA newnames d.dname with
        | none => st
        | some nn => updA st id (d.setName nn)) store

/-- Second loop of `prog.rename`: for each pair, if the old name is a
catalog key, delete it and re-insert the same symbol under the new name;
a missing old name is skipped (`continue`), not an error. -/
def renameSymtab (newnames : List (String × String)) (symtab : List (String × Nat)) :
    List (String × Nat) :=
  newnames.foldl
    (fun t q =>
      match lookA t q.1 with
      | none => t
      | some s => putA (delA t q.1) q.2 s) symtab

/-- The visitor of `prog.rename`'s tree walk: only `Name` expressions whose
text is a key of `newnames` get their text replaced. -/
def renameVisit (newnames : List (String × String)) (e : CExpr) : String :=
  if e.op = .name then
    match lookA newnames e.text with
    | none => e.text
    | some nn => nn
  else e.text

/-- Rewrite the expressions of one declaration (its body and initializer
trees) with a text visitor. -/
def mapDeclExprs (g : CExpr → String) : CDecl → CDecl
  | .mk n s t bd i f => .mk n s t (bd.map (rwTextList g)) (i.map (rwTextList g)) f

/-- Rewrite every expression of the parsed tree with a text visitor
(`cc.Preorder(prog.Prog, ...)` reaches all declarations, including the ones
dropped from `symlist` by `trim`). -/
def mapStoreExprs (g : CExpr → String) (store : List (Nat × CDecl)) :
    List (Nat × CDecl) :=
  store.map (fun kv => (kv.1, mapDeclExprs g kv.2))

/-- Model of `prog.rename`: rename declarations, patch the catalog, then rewrite
name references in the whole tree. -/
def rename (p : PState) (newnames : List (String × String)) : PState :=
  let st1 := renameDecls newnames p.store p.symlist
  { p with
    store := mapStoreExprs (renameVisit newnames) st1
    symtab := renameSymtab newnames p.symtab }

/-- Model of `prog.static`: a symbol is made file-local unless its name is a start
name or some file-table entry of a file routed to a different destination
file contains it. -/
def static (p : PState) (start : List String) (filemap : List (String × String)) :
    PState :=
  { p with
    store := p.symlist.foldl
      (fun st id =>
        match lookA st id with
        | none => st
        | some d =>
          let dfile := (lookA filemap d.spanFile).getD ""
          let canStatic := p.filetab.all
            (fun kv => decide ((lookA filemap kv.1).getD "" = dfile) ||
              ! decide (id ∈ kv.2))
          if canStatic && ! decide (d.dname ∈ start) then
            updA st id (d.setStorage .static)
          else st) p.store }

/-- The fresh `LSym *cursym` parameter declaration built for each patched
function definition. -/
def cursymArg : CDecl :=
  .mk "cursym" .auto (.mk .ptr "" [] (some (.mk .typedefType "LSym" [] none)))
    none none ""

/-- The definition rewrite of the threading pass: `sym.Type.Decls[0]` is
inspected — the Go code indexes the parameter list unconditionally, so an
empty list is a panic, modelled as `none`; a `void` first parameter makes
the whole list be replaced by the new parameter, otherwise the new
parameter is prepended. -/
def fixDefn (arg0 : CDecl) (d : CDecl) : Option CDecl :=
  match d.ctype.decls with
  | [] => none
  | p0 :: rest =>
    if p0.ctype.is .void then some (d.setDecls [arg0])
    else some (d.setDecls (arg0 :: p0 :: rest))

/-- Apply `fixDefn` to every function of the closure
(`for sym := range funcs`, per-symbol updates are independent). -/
def fixDefs (arg0 : CDecl) : List Nat → List (Nat × CDecl) → Option (List (Nat × CDecl))
  | [], store => some store
  | id :: rest, store =>
    match lookA store id with
    | none => fixDefs arg0 rest store
    | some d =>
      match fixDefn arg0 d with
      | none => none
      | some d2 => fixDefs arg0 rest (updA store id d2)

/-- The argument expression prepended at patched call sites
(`&cc.Expr\x7bOp: cc.Name, Text: "cursym"\x7d`). -/
def argExpr (s : String) : CExpr :=
  .mk .name s none [] none

/-- Does this call expression need the new leading argument?  The callee's
resolved declaration must be a tracked symbol and a member of the closure.
(Go reads `expr.Left.XDecl`; an absent callee cannot match.) -/
def callNeedsArg (symmap : List Nat) (funcs : List Nat) (e : CExpr) : Bool :=
  decide (e.op = .call) &&
    (match e.left with
     | none => false
     | some l =>
       match l.xdecl with
       | none => false
       | some id => decide (id ∈ symmap) && decide (id ∈ funcs))

mutual
/-- Call-site patch walk: prepend `arg` to the operand list of every node
satisfying `q`, visiting the node before its children like `cc.Preorder`
(the prepended argument itself is a fixed `Name` leaf the visitor leaves
unchanged). -/
def patchCallsE (q : CExpr → Bool) (arg : CExpr) : CExpr → CExpr
  | .mk op t l xs d =>
    .mk op t
      (match l with
       | none => none
       | some e => some (patchCallsE q arg e))
      (if q (.mk op t l xs d) then arg :: patchCallsL q arg xs
       else patchCallsL q arg xs) d

/-- Apply `patchCallsE` to each element of an operand list. -/
def patchCallsL (q : CExpr → Bool) (arg : CExpr) : List CExpr → List CExpr
  | [] => []
  | e :: es => patchCallsE q arg e :: patchCallsL q arg es
end

/-- Patch the call sites inside one declaration. -/
def patchDeclCalls (q : CExpr → Bool) (arg : CExpr) : CDecl → CDecl
  | .mk n s t bd i f =>
    .mk n s t (bd.map (patchCallsL q arg)) (i.map (patchCallsL q arg)) f

/-- Patch the call sites of the whole tree. -/
def patchStoreCalls (q : CExpr → Bool) (arg : CExpr) (store : List (Nat × CDecl)) :
    List (Nat × CDecl) :=
  store.map (fun kv => (kv.1, patchDeclCalls q arg kv.2))

/-- The reference-rewrite visitor of `prog.addcursym`: a `Name` expression
resolving through the catalog, or an `Addr`/`Call` expression whose
resolved declaration is tracked, whose symbol's name is in `needcursym`,
gets the one fixed accessor text `cursym->text`. -/
def cursymVisit (symtab : List (String × Nat)) (symmap : List Nat)
    (store : List (Nat × CDecl)) (need : List String) (e : CExpr) : String :=
  match e.op with
  | .name =>
    (match lookA symtab e.text with
     | none => e.text
     | some s =>
       match lookA store s with
       | none => e.text
       | some d => if d.dname ∈ need then "cursym->text" else e.text)
  | .addr | .call =>
    (match e.left with
     | none => e.text
     | some l =>
       match l.xdecl with
       | none => e.text
       | some id =>
         if id ∈ symmap then
           match lookA store id with
           | none => e.text
           | some d => if d.dname ∈ need then "cursym->text" else e.text
         else e.text)
  | .other => e.text

/-- The seed loop of `prog.addcursym`: for every `needcursym` name, resolve
it in the catalog (`log.Fatalf` on a miss) and mark every function holding
a reverse edge to it, except the one named `diag`. -/
def addcursymSeeds (p : PState) (need : List String) : Option (List Nat) :=
  need.foldl
    (fun acc n =>
      match acc with
      | none => none
      | some fs =>
        match lookA p.symtab n with
        | none => none
        | some g =>
          some ((getA p.reverse g).foldl
            (fun fs2 s =>
              match lookA p.store s with
              | none => fs2
              | some d => if d.dname = "diag" then fs2 else insertMem fs2 s) fs))
    (some [])

/-- The exclusion used by `addcursym`'s recursive `r`: skip the symbol
named `diag`. -/
def exclDiag (store : List (Nat × CDecl)) (s : Nat) : Bool :=
  decide ((lookA store s).map CDecl.dname = some "diag")

/-- Model of `prog.addcursym`: seed the closure from the users of the `needcursym`
globals, run the propagation loop (`for sym := range funcs \x7b r(sym) \x7d`,
embedded as the visited-set traversal started with every seed already
marked), patch the definitions, the call sites, and the references. -/
def addcursym (p : PState) (need : List String) : Option PState :=
  match addcursymSeeds p need with
  | none => none
  | some funcs0 =>
    let funcs := dfsEx p.reverse (exclDiag p.store) funcs0 funcs0
    match fixDefs cursymArg funcs p.store with
    | none => none
    | some st1 =>
      let st2 := patchStoreCalls (callNeedsArg p.symmap funcs) (argExpr "cursym") st1
      let st3 := mapStoreExprs (cursymVisit p.symtab p.symmap st2 need) st2
      some { p with store := st3 }

/-- Model of `printproto`: emit a prototype.  `nfn := *fn` is a shallow copy, so
`nfn.Type` aliases `fn.Type`: installing the name-blanked copies of the
parameter declarations writes through the shared type, and the final
`nfn.Type.Decls = olddecls` restores the original list before returning.
Returns the declaration as left in the heap plus the emitted text. -/
def printproto (fn : CDecl) : CDecl × String :=
  if ¬ fn.ctype.is .func then (fn, "")
  else
    let olddecls := fn.ctype.decls
    let newdecls := olddecls.map (fun v => v)
    let fn1 := fn.setDecls newdecls
    let fn2 := fn1.setDecls (newdecls.map (fun d => d.setName ""))
    let view := fn2.setBody none
    (fn2.setDecls olddecls, ppDecl view ++ ";\n")

/-- Model of `printfunc`: emit a full function. -/
def printfunc (fn : CDecl) : String :=
  if ¬ fn.ctype.is .func then "" else ppDecl fn ++ "\n\n"

/-- Model of `printdata`: emit a data declaration; initializer-less declarations and
enums are skipped. -/
def printdata (d : CDecl) : String :=
  if d.init.isNone || d.ctype.is .enum then "" else ppDecl d ++ ";\n\n"

/-- The per-destination printers: one triple of buffers (prototypes, data,
functions) per distinct destination name of the file map. -/
def initPrinters (filemap : List (String × String)) :
    List (String × (String × String × String)) :=
  filemap.foldl
    (fun acc kv =>
      if (lookA acc kv.2).isSome then acc else acc ++ [(kv.2, ("", "", ""))]) []

/-- The emission loop of `prog.print` over `prog.symlist`: route each
symbol to its destination's printer (symbols of unmapped files find no
printer and are skipped), emitting prototypes and bodies for defined
functions and data text otherwise.  The heap is threaded through
`printproto`, which temporarily rewrites the parameter list. -/
def printSyms (filemap : List (String × String)) :
    List Nat → List (Nat × CDecl) → List (String × (String × String × String)) →
      List (String × (String × String × String)) × List (Nat × CDecl)
  | [], store, prs => (prs, store)
  | id :: rest, store, prs =>
    match lookA store id with
    | none => printSyms filemap rest store prs
    | some d =>
      let dest := (lookA filemap d.spanFile).getD ""
      match lookA prs dest with
      | none => printSyms filemap rest store prs
      | some bufs =>
        if d.ctype.kind = .func then
          if d.body.isNone then printSyms filemap rest store prs
          else
            let pr := printproto d
            printSyms filemap rest (updA store id pr.1)
              (updA prs dest (bufs.1 ++ pr.2, bufs.2.1, bufs.2.2 ++ printfunc pr.1))
        else
          printSyms filemap rest store
            (updA prs dest (bufs.1, bufs.2.1 ++ printdata d, bufs.2.2))

/-- Model of `filenames`: the source file names, sorted. -/
def filenames (filemap : List (String × String)) : List String :=
  (filemap.map Prod.fst).mergeSort (fun a b => decide (a ≤ b))

/-- Model of `path.Base`, for the paths the tool prints. -/
def baseName (s : String) : String :=
  (s.splitOn "/").getLastD s

def isPre : List Char → List Char → Bool
  | [], _ => true
  | _ :: _, [] => false
  | a :: as, b :: bs => decide (a = b) && isPre as bs

def hasSubCh (pat : List Char) : List Char → Bool
  | [] => isPre pat []
  | c :: rest => isPre pat (c :: rest) || hasSubCh pat rest

/-- Model of `strings.Contains`. -/
def strContains (s pat : String) : Bool :=
  hasSubCh pat.data s.data

/-- The `// From ...` header written at the top of `.c` destination
files, naming the sorted source files routed to this destination. -/
def header (filemap : List (String × String)) (name : String) : String :=
  if strContains name ".c" then
    "// From " ++
      String.join ((filenames filemap).filterMap
        (fun f => if lookA filemap f = some name then some (baseName f ++ " ")
          else none)) ++ "\n\n"
  else ""

/-- Model of `prog.print`: emit one text file per destination (header, prototypes, a
blank line, data, functions), into the directory `l.<generation>`; the
stage number names the directory and nothing else. -/
def print (p : PState) (filemap : List (String × String)) (gen : Nat) :
    (String × List (String × String)) × PState :=
  let res := printSyms filemap p.symlist p.store (initPrinters filemap)
  (("l." ++ toString gen,
    res.1.map (fun pr =>
      (pr.1, header filemap pr.1 ++ pr.2.1 ++ "\n" ++ pr.2.2.1 ++ pr.2.2.2))),
   { p with store := res.2 })

/-- A `void` parameter declaration, as parsed for `f(void)`. -/
def voidParam : CDecl :=
  .mk "" .auto (.mk .void "" [] none) none none ""

/-- An `int`-like (non-`void`) parameter declaration. -/
def intParam : CDecl :=
  .mk "x" .auto (.mk .other "" [] none) none none ""

/-- A direct call expression with a resolved callee. -/
def callTo (s : String) (id : Nat) : CExpr :=
  .mk .call "" (some (.mk .name s none [] (some id))) [] none

/-- A resolved name reference. -/
def nameRef (s : String) (id : Nat) : CExpr :=
  .mk .name s none [] (some id)

/-- A function declaration with a `void` parameter list and a body. -/
def fnDecl (n file : String) (body : List CExpr) : CDecl :=
  .mk n .auto (.mk .func "" [voidParam] none) (some body) none file

/-- A global data declaration. -/
def dataDecl (n file : String) : CDecl :=
  .mk n .auto (.mk .other "" [] none) none none file

/-- Failing input for the threading-closure claim: call chain
`a → b → c`, sibling `d`, seed globals `curtext` (referenced by `c` only)
and `firstp` (referenced by nobody). -/
def pC1 : PState :=
  { store :=
      [(0, fnDecl "a" "f1" [callTo "b" 1]),
       (1, fnDecl "b" "f1" [callTo "c" 2]),
       (2, fnDecl "c" "f1" [nameRef "curtext" 10]),
       (3, fnDecl "d" "f1" []),
       (10, dataDecl "curtext" "f1"),
       (11, dataDecl "firstp" "f1")],
    symlist := [0, 1, 2, 3, 10, 11],
    symmap := [0, 1, 2, 3, 10, 11],
    symtab := [("a", 0), ("b", 1), ("c", 2), ("d", 3),
      ("curtext", 10), ("firstp", 11)],
    forward := [(0, [1]), (1, [2]), (2, [10]), (3, []), (10, []), (11, [])],
    reverse := [(0, []), (1, [0]), (2, [1]), (3, []), (10, [2]), (11, [])],
    filetab := [("f1", [0, 1, 2, 3, 10, 11])] }

/-- What `addcursym` actually produces on `pC1`: only `c` (the direct user
of `curtext`) gains the `cursym` parameter; `b`'s call to `c` gains the
argument, but `b` and `a` keep their old parameter lists. -/
def qC1 : PState :=
  { pC1 with store :=
      [(0, fnDecl "a" "f1" [callTo "b" 1]),
       (1, fnDecl "b" "f1"
         [.mk .call "" (some (.mk .name "c" none [] (some 2)))
           [argExpr "cursym"] none]),
       (2, .mk "c" .auto (.mk .func "" [cursymArg] none)
         (some [.mk .name "cursym->text" none [] (some 10)]) none "f1"),
       (3, fnDecl "d" "f1" []),
       (10, dataDecl "curtext" "f1"),
       (11, dataDecl "firstp" "f1")] }

/-- The one-function program used to show `rename` skips missing keys. -/
def pC5 : PState :=
  { store := [(0, fnDecl "a" "f1" [])],
    symlist := [0], symmap := [0],
    symtab := [("a", 0)],
    forward := [(0, [])], reverse := [(0, [])],
    filetab := [("f1", [0])] }

/-- Failing input for static-ization: `s` is declared in `f1` (destination
`x.c`) and referenced by the function `g` declared in `f2` (destination
`y.c`). -/
def pC6 : PState :=
  { store := [(0, dataDecl "s" "f1"), (1, fnDecl "g" "f2" [nameRef "s" 0])],
    symlist := [0, 1], symmap := [0, 1],
    symtab := [("s", 0), ("g", 1)],
    forward := [(0, []), (1, [0])],
    reverse := [(0, [1]), (1, [])],
    filetab := [("f1", [0]), ("f2", [1])] }

/-- The file-routing map of the static-ization failing input. -/
def fmC6 : List (String × String) :=
  [("f1", "x.c"), ("f2", "y.c")]

/-- The program of the rename witness: `f` calls itself by name. -/
def pC4 : PState :=
  { store := [(0, fnDecl "f" "f1" [nameRef "f" 0])],
    symlist := [0], symmap := [0],
    symtab := [("f", 0)],
    forward := [(0, [0])], reverse := [(0, [0])],
    filetab := [("f1", [0])] }

/-- The program of the extraction witness: `f` calls `g`; `h` is isolated. -/
def pC2 : PState :=
  { store :=
      [(0, fnDecl "f" "f1" [callTo "g" 1]),
       (1, fnDecl "g" "f1" []),
       (2, fnDecl "h" "f1" [])],
    symlist := [0, 1, 2], symmap := [0, 1, 2],
    symtab := [("f", 0), ("g", 1), ("h", 2)],
    forward := [(0, [1]), (1, []), (2, [])],
    reverse := [(0, []), (1, [0]), (2, [])],
    filetab := [("f1", [0, 1, 2])] }

/-- The program of the symmetry witness: its graph is built by
`buildGraph` from the single reference event `(0, 1)`. -/
def pC3 : PState :=
  { store :=
      [(0, fnDecl "f" "f1" [callTo "g" 1]),
       (1, fnDecl "g" "f1" [])],
    symlist := [0, 1], symmap := [0, 1],
    symtab := [("f", 0), ("g", 1)],
    forward := (buildGraph [0, 1] [(0, 1)]).1,
    reverse := (buildGraph [0, 1] [(0, 1)]).2,
    filetab := [("f1", [0, 1])] }

/-- A node the `addcursym` reference-rewrite visitor fires on: a `Name`
expression resolving through the catalog to a symbol whose name is a
`needcursym` key, or an `Addr`/`Call` expression whose resolved declaration
is a tracked symbol with such a name. -/
def CursymHit (symtab : List (String × Nat)) (symmap : List Nat)
    (store : List (Nat × CDecl)) (need : List String) (e : CExpr) : Prop :=
  (e.op = .name ∧ ∃ s d, lookA symtab e.text = some s ∧
    lookA store s = some d ∧ d.dname ∈ need) ∨
  ((e.op = .addr ∨ e.op = .call) ∧ ∃ l id d, e.left = some l ∧
    l.xdecl = some id ∧ id ∈ symmap ∧ lookA store id = some d ∧ d.dname ∈ need)

/-! ### Theorems -/

theorem lookA_mem {κ α : Type} [DecidableEq κ] {m : List (κ × α)} {k : κ} {v : α}
    (h : lookA m k = some v) : (k, v) ∈ m := by
  induction m with
  | nil => simp [lookA] at h
  | cons kv rest ih =>
    by_cases hk : k = kv.1
    · simp [lookA, hk] at h
      subst hk
      simp [← h]
    · simp [lookA, hk] at h
      exact List.mem_cons_of_mem _ (ih h)

theorem lookA_delA_self {κ α : Type} [DecidableEq κ] (m : List (κ × α)) (k : κ) :
    lookA (delA m k) k = none := by
  induction m with
  | nil => simp [delA, lookA]
  | cons kv rest ih =>
    by_cases hk : kv.1 = k
    · simpa [delA, hk] using ih
    · have hne : ¬ k = kv.1 := fun h => hk h.symm
      simp [delA, hk, lookA, hne]
      simpa [delA] using ih

theorem lookA_delA_ne {κ α : Type} [DecidableEq κ] (m : List (κ × α)) {k k' : κ}
    (h : k' ≠ k) : lookA (delA m k) k' = lookA m k' := by
  induction m with
  | nil => simp [delA]
  | cons kv rest ih =>
    by_cases hk : kv.1 = k
    · have h1 : delA (kv :: rest) k = delA rest k := by simp [delA, hk]
      have hne : ¬ k' = kv.1 := fun hEq => h (hEq.trans hk)
      rw [h1, ih]
      simp [lookA, hne]
    · have h1 : delA (kv :: rest) k = kv :: delA rest k := by simp [delA, hk]
      by_cases hk' : k' = kv.1
      · rw [h1]; simp [lookA, hk']
      · rw [h1]; simp only [lookA, if_neg hk']; exact ih

theorem lookA_updA_self {κ α : Type} [DecidableEq κ] (m : List (κ × α)) (k : κ) (v : α) :
    lookA (updA m k v) k = (lookA m k).map (fun _ => v) := by
  induction m with
  | nil => simp [updA, lookA]
  | cons kv rest ih =>
    by_cases hk : kv.1 = k
    · simp [updA, lookA, hk]
    · have hne : ¬ k = kv.1 := fun h => hk h.symm
      simp only [updA, List.map_cons, if_neg hk, lookA, if_neg hne]
      simpa [updA] using ih

theorem lookA_updA_ne {κ α : Type} [DecidableEq κ] (m : List (κ × α)) {k k' : κ} (v : α)
    (h : k' ≠ k) : lookA (updA m k v) k' = lookA m k' := by
  induction m with
  | nil => simp [updA, lookA]
  | cons kv rest ih =>
    by_cases hk : kv.1 = k
    · have hne : ¬ k' = kv.1 := fun hEq => h (hEq.trans hk)
      simp only [updA, List.map_cons, if_pos hk, lookA, if_neg hne, if_neg h]
      simpa [updA] using ih
    · by_cases hk' : k' = kv.1
      · simp [updA, lookA, hk, hk']
      · simp only [updA, List.map_cons, if_neg hk, lookA, if_neg hk']
        simpa [updA] using ih

theorem lookA_append_none {κ α : Type} [DecidableEq κ] {m : List (κ × α)} (l : List (κ × α))
    {k : κ} (h : lookA m k = none) : lookA (m ++ l) k = lookA l k := by
  induction m with
  | nil => simp
  | cons kv rest ih =>
    by_cases hk : k = kv.1
    · simp [lookA, hk] at h
    · simp only [lookA, if_neg hk] at h
      simpa [lookA, hk] using ih h

theorem lookA_append_some {κ α : Type} [DecidableEq κ] {m : List (κ × α)} (l : List (κ × α))
    {k : κ} {v : α} (h : lookA m k = some v) : lookA (m ++ l) k = some v := by
  induction m with
  | nil => simp [lookA] at h
  | cons kv rest ih =>
    by_cases hk : k = kv.1
    · simpa [lookA, hk] using h
    · simp only [lookA, if_neg hk] at h
      simpa [lookA, hk] using ih h

theorem lookA_putA_self {κ α : Type} [DecidableEq κ] (m : List (κ × α)) (k : κ) (v : α) :
    lookA (putA m k v) k = some v := by
  unfold putA
  by_cases hs : (lookA m k).isSome
  · rw [if_pos hs]
    obtain ⟨w, hw⟩ := Option.isSome_iff_exists.mp hs
    have := lookA_updA_self m k v
    simp only [updA] at this
    rw [this, hw]
    rfl
  · rw [if_neg hs]
    have hnone : lookA m k = none := Option.not_isSome_iff_eq_none.mp hs
    rw [lookA_append_none _ hnone]
    simp [lookA]

theorem lookA_putA_ne {κ α : Type} [DecidableEq κ] (m : List (κ × α)) {k k' : κ} (v : α)
    (h : k' ≠ k) : lookA (putA m k v) k' = lookA m k' := by
  unfold putA
  by_cases hs : (lookA m k).isSome
  · rw [if_pos hs]
    have := lookA_updA_ne m v h
    simpa [updA] using this
  · rw [if_neg hs]
    cases hv : lookA m k' with
    | none => simp [lookA_append_none _ hv, lookA, h]
    | some w => simp [lookA_append_some _ hv]

theorem rwText_mk (g : CExpr → String) (op t l xs d) :
    rwText g (.mk op t l xs d) =
      .mk op (g (.mk op t l xs d))
        (match l with
         | none => none
         | some e => some (rwText g e))
        (rwTextList g xs) d := by
  rw [rwText.eq_def]

theorem rwTextList_get? (g : CExpr → String) (xs : List CExpr) (n : Nat) :
    (rwTextList g xs).get? n = (xs.get? n).map (rwText g) := by
  induction xs generalizing n with
  | nil => simp [rwTextList]
  | cons e es ih =>
    cases n with
    | zero => simp [rwTextList]
    | succ m => simpa [rwTextList] using ih m

theorem rwText_op (g : CExpr → String) (e : CExpr) : (rwText g e).op = e.op := by
  cases e
  rw [rwText_mk]
  simp [CExpr.op]

theorem rwText_text (g : CExpr → String) (e : CExpr) : (rwText g e).text = g e := by
  cases e
  rw [rwText_mk]
  simp [CExpr.text]

/-- A structure-preserving text rewrite commutes with subtree extraction. -/
theorem getPath_rwText (g : CExpr → String) (e : CExpr) (p : List Step) :
    getPath (rwText g e) p = (getPath e p).map (rwText g) := by
  induction p generalizing e with
  | nil => simp [getPath]
  | cons s p ih =>
    cases s with
    | intoLeft =>
      cases e with
      | mk op t l xs d =>
        rw [rwText_mk]
        cases l with
        | none => simp [getPath, CExpr.left]
        | some l0 => simpa [getPath, CExpr.left] using ih l0
    | intoArg n =>
      cases e with
      | mk op t l xs d =>
        rw [rwText_mk]
        simp only [getPath, CExpr.args, rwTextList_get? g xs n]
        cases h : xs.get? n with
        | none => simp [h]
        | some a => simpa [h] using ih a

theorem getA_not_key {m : List (Nat × List Nat)} {k : Nat} (h : k ∉ keysOf m) :
    getA m k = [] := by
  induction m with
  | nil => rfl
  | cons kv rest ih =>
    simp only [keysOf, List.map_cons, List.toFinset_cons, Finset.mem_insert, not_or] at h
    have hne : ¬ k = kv.1 := h.1
    simp only [getA, lookA, if_neg hne]
    exact ih (by simpa [keysOf] using h.2)

theorem dfsEx_nil (fw : List (Nat × List Nat)) (excl : Nat → Bool) (visited : List Nat) :
    dfsEx fw excl [] visited = visited := by
  rw [dfsEx]

theorem dfsEx_cons (fw : List (Nat × List Nat)) (excl : Nat → Bool)
    (sym : Nat) (rest visited : List Nat) :
    dfsEx fw excl (sym :: rest) visited =
      if sym ∈ visited then dfsEx fw excl rest visited
      else if excl sym then dfsEx fw excl rest visited
      else dfsEx fw excl (getA fw sym ++ rest) (sym :: visited) := by
  rw [dfsEx]

/-- The `for sym := range funcs \x7b r(sym) \x7d` loops of `addctxt` and
`addcursym` call `r` only on symbols that are already marked, so the
traversal marks nothing new: the propagation loop is a no-op. -/
theorem dfsEx_all_visited (fw : List (Nat × List Nat)) (excl : Nat → Bool) :
    ∀ (roots visited : List Nat), (∀ s ∈ roots, s ∈ visited) →
      dfsEx fw excl roots visited = visited := by
  intro roots
  induction roots with
  | nil => intro visited _; exact dfsEx_nil fw excl visited
  | cons sym rest ih =>
    intro visited h
    rw [dfsEx_cons, if_pos (h sym (List.mem_cons_self sym rest))]
    exact ih visited (fun s hs => h s (List.mem_cons_of_mem _ hs))

theorem reaches_from_iff (fw : List (Nat × List Nat)) (sym x : Nat) :
    Reaches fw sym x ↔ x = sym ∨ ∃ y ∈ getA fw sym, Reaches fw y x := by
  constructor
  · intro h
    rcases Relation.ReflTransGen.cases_head h with h1 | ⟨c, hc, hp⟩
    · exact Or.inl h1.symm
    · exact Or.inr ⟨c, hc, hp⟩
  · rintro (rfl | ⟨y, hy, hp⟩)
    · exact Relation.ReflTransGen.refl
    · exact Relation.ReflTransGen.head hy hp

/-- A path out of a marked symbol either stays inside the marked set or
first crosses into the pending worklist. -/
theorem reach_escape (fw : List (Nat × List Nat)) (visited rest : List Nat)
    (hinv : ∀ v ∈ visited, ∀ y ∈ getA fw v, y ∈ visited ∨ y ∈ rest)
    {a x : Nat} (hr : Reaches fw a x) (ha : a ∈ visited) :
    x ∈ visited ∨ ∃ r ∈ rest, Reaches fw r x := by
  have main : a ∈ visited → (x ∈ visited ∨ ∃ r ∈ rest, Reaches fw r x) := by
    clear ha
    induction hr using Relation.ReflTransGen.head_induction_on with
    | refl => exact fun hx => Or.inl hx
    | head h' htail ih =>
      intro hc
      rcases hinv _ hc _ h' with hv | hrw
      · exact ih hv
      · exact Or.inr ⟨_, hrw, htail⟩
  exact main ha

/-- Correctness of the visited-set traversal without exclusions (the shape
used by `extract`): starting from an internally closed marked set, the
traversal marks exactly the old marks plus everything reachable from the
worklist. -/
theorem dfsEx_spec (fw : List (Nat × List Nat)) (roots visited : List Nat) :
    (∀ v ∈ visited, ∀ y ∈ getA fw v, y ∈ visited ∨ y ∈ roots) →
    ∀ x, x ∈ dfsEx fw (fun _ => false) roots visited ↔
      x ∈ visited ∨ ∃ r ∈ roots, Reaches fw r x := by
  induction roots, visited using dfsEx.induct fw (fun _ => false) with
  | case1 visited =>
    intro _ x
    rw [dfsEx_nil]
    simp
  | case2 sym rest visited hmem ih =>
    intro hinv x
    rw [dfsEx_cons, if_pos hmem]
    have hinv' : ∀ v ∈ visited, ∀ y ∈ getA fw v, y ∈ visited ∨ y ∈ rest := by
      intro v hv y hy
      rcases hinv v hv y hy with h | h
      · exact Or.inl h
      · rcases List.mem_cons.mp h with rfl | h2
        · exact Or.inl hmem
        · exact Or.inr h2
    rw [ih hinv' x]
    constructor
    · rintro (h | ⟨r, hr, hp⟩)
      · exact Or.inl h
      · exact Or.inr ⟨r, List.mem_cons_of_mem _ hr, hp⟩
    · rintro (h | ⟨r, hr, hp⟩)
      · exact Or.inl h
      · rcases List.mem_cons.mp hr with rfl | h2
        · exact reach_escape fw visited rest hinv' hp hmem
        · exact Or.inr ⟨r, h2, hp⟩
  | case3 sym rest visited hmem hexcl ih =>
    simp at hexcl
  | case4 sym rest visited hmem hexcl ih =>
    intro hinv x
    rw [dfsEx_cons, if_neg hmem, if_neg (by simp)]
    have hinv2 : ∀ v ∈ sym :: visited, ∀ y ∈ getA fw v,
        y ∈ sym :: visited ∨ y ∈ getA fw sym ++ rest := by
      intro v hv y hy
      rcases List.mem_cons.mp hv with rfl | hv2
      · exact Or.inr (List.mem_append_left _ hy)
      · rcases hinv v hv2 y hy with h | h
        · exact Or.inl (List.mem_cons_of_mem _ h)
        · rcases List.mem_cons.mp h with rfl | h2
          · exact Or.inl (List.mem_cons_self _ _)
          · exact Or.inr (List.mem_append_right _ h2)
    rw [ih hinv2 x]
    constructor
    · rintro (h | ⟨r, hr, hp⟩)
      · rcases List.mem_cons.mp h with rfl | h2
        · exact Or.inr ⟨x, List.mem_cons_self _ _, Relation.ReflTransGen.refl⟩
        · exact Or.inl h2
      · rcases List.mem_append.mp hr with h2 | h2
        · exact Or.inr ⟨sym, List.mem_cons_self _ _,
            Relation.ReflTransGen.head h2 hp⟩
        · exact Or.inr ⟨r, List.mem_cons_of_mem _ h2, hp⟩
    · rintro (h | ⟨r, hr, hp⟩)
      · exact Or.inl (List.mem_cons_of_mem _ h)
      · rcases List.mem_cons.mp hr with rfl | h2
        · rcases (reaches_from_iff fw r x).mp hp with rfl | ⟨y, hy, hp2⟩
          · exact Or.inl (List.mem_cons_self _ _)
          · exact Or.inr ⟨y, List.mem_append_left _ hy, hp2⟩
        · exact Or.inr ⟨r, List.mem_append_right _ h2, hp⟩

theorem lookA_filterKey_pos {α : Type} {m : List (Nat × α)} {P : Nat → Bool} {a : Nat}
    (h : P a = true) :
    lookA (m.filter (fun kv => P kv.1)) a = lookA m a := by
  induction m with
  | nil => rfl
  | cons kv rest ih =>
    by_cases hk : a = kv.1
    · subst hk
      simp [List.filter_cons, h, lookA]
    · by_cases hp : P kv.1 = true
      · simp [List.filter_cons, hp, lookA, hk, ih]
      · have hp2 : P kv.1 = false := by simpa using hp
        simp [List.filter_cons, hp2, lookA, hk, ih]

theorem lookA_filterKey_neg {α : Type} {m : List (Nat × α)} {P : Nat → Bool} {a : Nat}
    (h : P a = false) :
    lookA (m.filter (fun kv => P kv.1)) a = none := by
  induction m with
  | nil => rfl
  | cons kv rest ih =>
    by_cases hp : P kv.1 = true
    · have hk : ¬ a = kv.1 := by
        intro hEq
        rw [hEq, hp] at h
        simp at h
      simp [List.filter_cons, hp, lookA, hk, ih]
    · have hp2 : P kv.1 = false := by simpa using hp
      simp [List.filter_cons, hp2, ih]

theorem lookA_mapVal {κ α β : Type} [DecidableEq κ] (m : List (κ × α)) (g : α → β) (a : κ) :
    lookA (m.map (fun kv => (kv.1, g kv.2))) a = (lookA m a).map g := by
  induction m with
  | nil => rfl
  | cons kv rest ih =>
    by_cases hk : a = kv.1
    · simp [lookA, hk]
    · simp [lookA, hk, ih]

theorem getA_filterKey (m : List (Nat × List Nat)) (subset : List Nat) (a : Nat) :
    getA (m.filter (fun kv => decide (kv.1 ∈ subset))) a =
      if a ∈ subset then getA m a else [] := by
  by_cases ha : a ∈ subset
  · rw [if_pos ha]
    unfold getA
    rw [lookA_filterKey_pos (P := fun k => decide (k ∈ subset)) (by simpa using ha)]
  · rw [if_neg ha]
    unfold getA
    rw [lookA_filterKey_neg (P := fun k => decide (k ∈ subset)) (by simpa using ha)]
    rfl

/-- Membership of an edge target, given all edge sets draw from `L`. -/
theorem mem_of_getA {m : List (Nat × List Nat)} {L : List Nat}
    (h : ∀ kv ∈ m, ∀ v ∈ kv.2, v ∈ L) {a b : Nat} (hb : b ∈ getA m a) : b ∈ L := by
  unfold getA at hb
  cases hl : lookA m a with
  | none => rw [hl] at hb; simp at hb
  | some l =>
    rw [hl] at hb
    exact h (a, l) (lookA_mem hl) b hb

theorem reaches_mem {m : List (Nat × List Nat)} {L : List Nat}
    (h : ∀ kv ∈ m, ∀ v ∈ kv.2, v ∈ L) {a x : Nat}
    (hr : Reaches m a x) (ha : a ∈ L) : x ∈ L := by
  induction hr with
  | refl => exact ha
  | tail _ he ih => exact mem_of_getA h he

theorem resolveAll_none {t : List (String × Nat)} {ns : List String} {n : String}
    (hn : n ∈ ns) (h : lookA t n = none) : resolveAll t ns = none := by
  induction ns with
  | nil => simp at hn
  | cons m ms ih =>
    rcases List.mem_cons.mp hn with rfl | h2
    · simp [resolveAll, h]
    · rw [resolveAll, ih h2]
      cases lookA t m <;> rfl

theorem resolveAll_isSome {t : List (String × Nat)} {ns : List String}
    (h : ∀ n ∈ ns, (lookA t n).isSome) : (resolveAll t ns).isSome := by
  induction ns with
  | nil => simp [resolveAll]
  | cons m ms ih =>
    obtain ⟨s, hs⟩ := Option.isSome_iff_exists.mp (h m (List.mem_cons_self _ _))
    have hrest := ih (fun n hn => h n (List.mem_cons_of_mem _ hn))
    obtain ⟨l, hl⟩ := Option.isSome_iff_exists.mp hrest
    simp [resolveAll, hs, hl]

theorem resolveAll_mem {t : List (String × Nat)} {ns : List String} {roots : List Nat}
    (h : resolveAll t ns = some roots) :
    ∀ x, x ∈ roots ↔ ∃ n ∈ ns, lookA t n = some x := by
  induction ns generalizing roots with
  | nil =>
    simp [resolveAll] at h
    subst h
    simp
  | cons m ms ih =>
    rw [resolveAll] at h
    cases hs : lookA t m with
    | none => rw [hs] at h; simp at h
    | some s =>
      rw [hs] at h
      cases hr : resolveAll t ms with
      | none => rw [hr] at h; simp at h
      | some l =>
        rw [hr] at h
        simp only [] at h
        obtain rfl : s :: l = roots := by simpa using h
        intro x
        rw [List.mem_cons, ih hr x]
        constructor
        · rintro (rfl | ⟨n, hn, hx⟩)
          · exact ⟨m, List.mem_cons_self _ _, hs⟩
          · exact ⟨n, List.mem_cons_of_mem _ hn, hx⟩
        · rintro ⟨n, hn, hx⟩
          rcases List.mem_cons.mp hn with rfl | h2
          · exact Or.inl (by rw [hs] at hx; exact (Option.some_injective _ hx).symm)
          · exact Or.inr ⟨n, h2, hx⟩

theorem mem_insertMem (l : List Nat) (x y : Nat) :
    y ∈ insertMem l x ↔ y ∈ l ∨ y = x := by
  unfold insertMem
  by_cases hx : x ∈ l
  · rw [if_pos hx]
    constructor
    · exact Or.inl
    · rintro (h | rfl)
      · exact h
      · exact hx
  · rw [if_neg hx]
    simp

theorem lookA_selfmap {α : Type} (univ : List Nat) (c : α) (a : Nat) :
    lookA (univ.map (fun x => (x, c))) a = if a ∈ univ then some c else none := by
  induction univ with
  | nil => simp [lookA]
  | cons u us ih =>
    by_cases ha : a = u
    · simp [lookA, ha]
    · simp only [List.map_cons, lookA, if_neg ha, ih, List.mem_cons]
      by_cases h2 : a ∈ us <;> simp [h2, ha]

theorem getA_updA_self {m : List (Nat × List Nat)} {k : Nat} (w : List Nat)
    (h : (lookA m k).isSome) : getA (updA m k w) k = w := by
  unfold getA
  rw [lookA_updA_self]
  obtain ⟨l, hl⟩ := Option.isSome_iff_exists.mp h
  rw [hl]
  rfl

theorem getA_updA_ne {m : List (Nat × List Nat)} {k a : Nat} (w : List Nat)
    (h : a ≠ k) : getA (updA m k w) a = getA m a := by
  unfold getA
  rw [lookA_updA_ne _ _ h]

theorem lookA_updA_isSome {α : Type} (m : List (Nat × α)) (k a : Nat) (w : α) :
    (lookA (updA m k w) a).isSome = (lookA m a).isSome := by
  by_cases ha : a = k
  · subst ha
    rw [lookA_updA_self]
    cases lookA m a <;> rfl
  · rw [lookA_updA_ne _ _ ha]

/-- Invariant-carrying step lemma for `buildGraph`: folding the reference
events over maps that are symmetric and have every `univ` member as a key
keeps the maps symmetric. -/
theorem buildGraph_fold_symm (univ : List Nat) :
    ∀ (edges : List (Nat × Nat)) (g : List (Nat × List Nat) × List (Nat × List Nat)),
      (∀ e ∈ edges, e.1 ∈ univ ∧ e.2 ∈ univ) →
      (∀ x ∈ univ, (lookA g.1 x).isSome) →
      (∀ x ∈ univ, (lookA g.2 x).isSome) →
      Symm g.1 g.2 →
      Symm (edges.foldl
        (fun g e =>
          (updA g.1 e.1 (insertMem (getA g.1 e.1) e.2),
           updA g.2 e.2 (insertMem (getA g.2 e.2) e.1))) g).1
        (edges.foldl
          (fun g e =>
            (updA g.1 e.1 (insertMem (getA g.1 e.1) e.2),
             updA g.2 e.2 (insertMem (getA g.2 e.2) e.1))) g).2 := by
  intro edges
  induction edges with
  | nil => intro g _ _ _ hs; exact hs
  | cons e es ih =>
    intro g he h1 h2 hs
    have hc : e.1 ∈ univ := (he e (List.mem_cons_self _ _)).1
    have hd : e.2 ∈ univ := (he e (List.mem_cons_self _ _)).2
    rw [List.foldl_cons]
    apply ih _ (fun x hx => he x (List.mem_cons_of_mem _ hx))
    · intro x hx
      rw [lookA_updA_isSome]
      exact h1 x hx
    · intro x hx
      rw [lookA_updA_isSome]
      exact h2 x hx
    · intro a b
      by_cases hac : a = e.1
      · subst hac
        rw [getA_updA_self _ (h1 _ hc)]
        by_cases hbd : b = e.2
        · subst hbd
          rw [getA_updA_self _ (h2 _ hd)]
          simp [mem_insertMem]
        · rw [getA_updA_ne _ hbd, mem_insertMem]
          constructor
          · rintro (h | rfl)
            · exact (hs e.1 b).mp h
            · exact absurd rfl hbd
          · intro h
            exact Or.inl ((hs e.1 b).mpr h)
      · rw [getA_updA_ne _ hac]
        by_cases hbd : b = e.2
        · subst hbd
          rw [getA_updA_self _ (h2 _ hd), mem_insertMem]
          constructor
          · intro h
            exact Or.inl ((hs a e.2).mp h)
          · rintro (h | rfl)
            · exact (hs a e.2).mpr h
            · exact absurd rfl hac
        · rw [getA_updA_ne _ hbd]
          exact hs a b

/-- The marked set computed inside `extract` is exactly the set of symbols
reachable from the resolved start names. -/
theorem extract_subset_spec (p : PState) (start : List String) (roots : List Nat)
    (h : resolveAll p.symtab start = some roots) :
    ∀ x, x ∈ dfsEx p.forward (fun _ => false) roots [] ↔ ReachableFrom p start x := by
  intro x
  rw [dfsEx_spec p.forward roots [] (by simp) x]
  simp only [List.not_mem_nil, false_or]
  unfold ReachableFrom
  constructor
  · rintro ⟨r, hr, hp⟩
    obtain ⟨n, hn, hl⟩ := (resolveAll_mem h r).mp hr
    exact ⟨n, hn, r, hl, hp⟩
  · rintro ⟨n, hn, r, hl, hp⟩
    exact ⟨r, (resolveAll_mem h r).mpr ⟨n, hn, hl⟩, hp⟩

/-- The marked set computed inside `extract` is closed under forward
edges. -/
theorem extract_subset_closed (p : PState) (start : List String) (roots : List Nat)
    (h : resolveAll p.symtab start = some roots) :
    ∀ x y, x ∈ dfsEx p.forward (fun _ => false) roots [] → y ∈ getA p.forward x →
      y ∈ dfsEx p.forward (fun _ => false) roots [] := by
  intro x y hx hy
  rw [extract_subset_spec p start roots h] at hx ⊢
  obtain ⟨n, hn, r, hl, hp⟩ := hx
  exact ⟨n, hn, r, hl, hp.tail hy⟩

theorem setDecls_setDecls (d : CDecl) (a b : List CDecl) :
    (d.setDecls a).setDecls b = d.setDecls b := by
  cases d with
  | mk n s t bd i f => cases t with | mk k tn ds b0 => rfl

theorem setDecls_self (d : CDecl) : d.setDecls d.ctype.decls = d := by
  cases d with
  | mk n s t bd i f => cases t with | mk k tn ds b0 => rfl

/-- Restoration: `printproto` puts back the original parameter declaration list before
returning: the declaration left in the heap is the one that was passed. -/
theorem printproto_fst (fn : CDecl) : (printproto fn).1 = fn := by
  unfold printproto
  by_cases hf : ¬ fn.ctype.is .func
  · rw [if_pos hf]
  · rw [if_neg hf]
    simp only [setDecls_setDecls, setDecls_self]

/-- The emission loop leaves every declaration of the heap as it was. -/
theorem printSyms_store_lookup (filemap : List (String × String)) :
    ∀ (ids : List Nat) (store : List (Nat × CDecl))
      (prs : List (String × (String × String × String))) (j : Nat),
      lookA (printSyms filemap ids store prs).2 j = lookA store j := by
  intro ids
  induction ids with
  | nil => intro store prs j; rfl
  | cons id rest ih =>
    intro store prs j
    rw [printSyms]
    cases hd : lookA store id with
    | none => exact ih store prs j
    | some d =>
      simp only []
      cases hp : lookA prs ((lookA filemap d.spanFile).getD "") with
      | none => exact ih store prs j
      | some bufs =>
        simp only []
        by_cases hk : d.ctype.kind = .func
        · simp only [if_pos hk]
          by_cases hb : d.body.isNone
          · simp only [if_pos hb]
            exact ih store prs j
          · simp only [if_neg hb]
            rw [ih _ _ j, printproto_fst]
            by_cases hj : j = id
            · subst hj
              rw [lookA_updA_self, hd]
              rfl
            · rw [lookA_updA_ne _ _ hj]
        · simp only [if_neg hk]
          exact ih store _ j

/-- Two heaps with the same lookups drive the emission loop identically. -/
theorem printSyms_out_congr (filemap : List (String × String)) :
    ∀ (ids : List Nat) (store1 store2 : List (Nat × CDecl))
      (prs : List (String × (String × String × String))),
      (∀ j, lookA store1 j = lookA store2 j) →
      (printSyms filemap ids store1 prs).1 = (printSyms filemap ids store2 prs).1 := by
  intro ids
  induction ids with
  | nil => intro store1 store2 prs _; rfl
  | cons id rest ih =>
    intro store1 store2 prs heq
    rw [printSyms, printSyms, heq id]
    cases hd : lookA store2 id with
    | none => exact ih store1 store2 prs heq
    | some d =>
      simp only []
      cases hp : lookA prs ((lookA filemap d.spanFile).getD "") with
      | none => exact ih store1 store2 prs heq
      | some bufs =>
        simp only []
        by_cases hk : d.ctype.kind = .func
        · simp only [if_pos hk]
          by_cases hb : d.body.isNone
          · simp only [if_pos hb]
            exact ih store1 store2 prs heq
          · simp only [if_neg hb]
            apply ih
            intro j
            by_cases hj : j = id
            · subst hj
              rw [lookA_updA_self, lookA_updA_self, heq _]
            · rw [lookA_updA_ne _ _ hj, lookA_updA_ne _ _ hj]
              exact heq j
        · simp only [if_neg hk]
          exact ih store1 store2 _ heq

theorem mem_rwTextList (g : CExpr → String) (l : List CExpr) (e : CExpr) :
    e ∈ rwTextList g l ↔ ∃ e0 ∈ l, e = rwText g e0 := by
  induction l with
  | nil => simp [rwTextList]
  | cons x xs ih =>
    rw [rwTextList]
    simp only [List.mem_cons, ih]
    constructor
    · rintro (rfl | ⟨e0, h0, rfl⟩)
      · exact ⟨x, Or.inl rfl, rfl⟩
      · exact ⟨e0, Or.inr h0, rfl⟩
    · rintro ⟨e0, h0 | h0, rfl⟩
      · subst h0; exact Or.inl rfl
      · exact Or.inr ⟨e0, h0, rfl⟩

/-- The rename visitor never produces the old name at a `Name` node. -/
theorem renameVisit_ne_old (old nw : String) (hne : old ≠ nw) (e : CExpr)
    (hop : e.op = .name) : renameVisit [(old, nw)] e ≠ old := by
  unfold renameVisit
  rw [if_pos hop]
  by_cases ht : e.text = old
  · rw [show lookA [(old, nw)] e.text = some nw by simp [lookA, ht]]
    exact fun h => hne h.symm
  · rw [show lookA [(old, nw)] e.text = none by simp [lookA, ht]]
    exact ht

/-- After the rename tree walk, no `Name` node anywhere in a rewritten
tree carries the old text. -/
theorem rwText_rename_no_old (old nw : String) (hne : old ≠ nw) (e : CExpr)
    (path : List Step) (sub : CExpr)
    (hsub : getPath (rwText (renameVisit [(old, nw)]) e) path = some sub)
    (hop : sub.op = .name) : sub.text ≠ old := by
  rw [getPath_rwText] at hsub
  cases h0 : getPath e path with
  | none => rw [h0] at hsub; simp at hsub
  | some sub0 =>
    rw [h0] at hsub
    obtain rfl : rwText (renameVisit [(old, nw)]) sub0 = sub := by
      simpa using hsub
    rw [rwText_text]
    apply renameVisit_ne_old old nw hne
    rw [← rwText_op (renameVisit [(old, nw)]) sub0]
    exact hop

/-- Once the seed fold has aborted it stays aborted. -/
theorem addcursymSeedsFold_none (p : PState) (l : List String) :
    l.foldl
      (fun acc n =>
        match acc with
        | none => none
        | some fs =>
          match lookA p.symtab n with
          | none => none
          | some g =>
            some ((getA p.reverse g).foldl
              (fun fs2 s =>
                match lookA p.store s with
                | none => fs2
                | some d => if d.dname = "diag" then fs2 else insertMem fs2 s) fs))
      none = none := by
  induction l with
  | nil => rfl
  | cons n ns ih => simpa using ih

/-- A `needcursym` name missing from the catalog makes the seed loop abort
(`log.Fatalf`). -/
theorem addcursymSeeds_none (p : PState) (need : List String) (n : String)
    (hn : n ∈ need) (h : lookA p.symtab n = none) :
    addcursymSeeds p need = none := by
  unfold addcursymSeeds
  have main : ∀ (l : List String) (fs : List Nat), n ∈ l →
      l.foldl
        (fun acc n =>
          match acc with
          | none => none
          | some fs =>
            match lookA p.symtab n with
            | none => none
            | some g =>
              some ((getA p.reverse g).foldl
                (fun fs2 s =>
                  match lookA p.store s with
                  | none => fs2
                  | some d => if d.dname = "diag" then fs2 else insertMem fs2 s) fs))
        (some fs) = none := by
    intro l
    induction l with
    | nil => intro fs hf; simp at hf
    | cons m ms ih =>
      intro fs hf
      rcases List.mem_cons.mp hf with rfl | h2
      · rw [List.foldl_cons]
        simp only [h]
        exact addcursymSeedsFold_none p ms
      · rw [List.foldl_cons]
        cases hm : lookA p.symtab m with
        | none =>
          simp only []
          exact addcursymSeedsFold_none p ms
        | some g =>
          simp only []
          exact ih _ h2
  exact main need [] hn

/-- C1 — the claim fails on the code: with call graph `a → b → c`, seed on
`c` (its body references the relocated global `curtext`), the threading
pass patches only `c`.  The propagation loop
`for sym := range funcs \x7b r(sym) \x7d` calls `r` only on symbols already in
`funcs`, whose first guard returns immediately, so no caller is ever added:
`b` and `a` keep their parameter lists (the claim requires them to gain the
leading parameter), while `b`'s call site of `c` still gains the `cursym`
argument. -/
theorem c1_threading_no_propagation :
    addcursym pC1 ["curtext", "firstp"] = some qC1 ∧
    (lookA qC1.store 2).map (fun d => d.ctype.decls) = some [cursymArg] ∧
    (lookA qC1.store 1).map (fun d => d.ctype.decls) = some [voidParam] ∧
    (lookA qC1.store 0).map (fun d => d.ctype.decls) = some [voidParam] := by
  refine ⟨?_, rfl, rfl, rfl⟩
  have hdfs : dfsEx pC1.reverse (exclDiag pC1.store) [2] [2] = [2] :=
    dfsEx_all_visited _ _ _ _ (by intro s hs; simpa using hs)
  have h1 : addcursymSeeds pC1 ["curtext", "firstp"] = some [2] := rfl
  unfold addcursym
  rw [h1]
  simp only []
  rw [hdfs]
  rfl

/-- C5 (amended) — a missing start symbol aborts `extract`, a missing
threading seed aborts `addcursym`, but a rename key missing from the
catalog is silently skipped (`continue`): the pair has no effect on the
catalog and the run goes on. -/
theorem c5_fatal_config_amended :
    (∀ (p : PState) (start : List String) (n : String), n ∈ start →
      lookA p.symtab n = none → extract p start = none) ∧
    (∀ (p : PState) (need : List String) (n : String), n ∈ need →
      lookA p.symtab n = none → addcursym p need = none) ∧
    (∀ (p : PState) (old nw : String), lookA p.symtab old = none →
      (rename p [(old, nw)]).symtab = p.symtab) := by
  refine ⟨?_, ?_, ?_⟩
  · intro p start n hn h
    unfold extract
    rw [resolveAll_none hn h]
  · intro p need n hn h
    unfold addcursym
    rw [addcursymSeeds_none p need n hn h]
  · intro p old nw h
    simp [rename, renameSymtab, h]

/-- C5 — counterexample to the claim as stated: renaming with the key
`"nosuch"`, absent from the catalog, does not abort the run; the pass
completes and leaves the program untouched. -/
theorem c5_rename_missing_not_fatal :
    lookA pC5.symtab "nosuch" = none ∧
    (rename pC5 [("nosuch", "x")]).symtab = pC5.symtab ∧
    (rename pC5 [("nosuch", "x")]).store = pC5.store := by
  exact ⟨rfl, rfl, rfl⟩

/-- C5 — witness for the amended claim at concrete inputs. -/
theorem c5_fatal_config_witness :
    ("zzz" ∈ ["zzz"] ∧ lookA pC5.symtab "zzz" = none) ∧
    extract pC5 ["zzz"] = none ∧
    addcursym pC5 ["zzz"] = none ∧
    (rename pC5 [("zzz", "x")]).symtab = pC5.symtab := by
  refine ⟨⟨List.mem_cons_self _ _, rfl⟩, ?_, ?_, ?_⟩
  · exact c5_fatal_config_amended.1 pC5 ["zzz"] "zzz" (List.mem_cons_self _ _) rfl
  · exact c5_fatal_config_amended.2.1 pC5 ["zzz"] "zzz" (List.mem_cons_self _ _) rfl
  · exact c5_fatal_config_amended.2.2 pC5 "zzz" "x" rfl

/-- C6 — the claim fails on the code: `s` is declared in `f1` (destination
`x.c`) and referenced from `g` in `f2` (destination `y.c`), yet `static`
marks `s` file-local.  The cross-file test scans `filetab`, which maps each
file to the symbols declared there — `s` occurs only under its own file, so
the `static = false` branch can never fire and every non-start symbol is
made static. -/
theorem c6_static_overreach :
    1 ∈ getA pC6.reverse 0 ∧
    (lookA pC6.store 1).map CDecl.spanFile = some "f2" ∧
    lookA fmC6 "f2" = some "y.c" ∧
    (lookA pC6.store 0).map CDecl.spanFile = some "f1" ∧
    lookA fmC6 "f1" = some "x.c" ∧
    (lookA (static pC6 [] fmC6).store 0).map CDecl.storage = some .static := by
  refine ⟨?_, rfl, rfl, rfl, rfl, rfl⟩
  decide

theorem mapDeclExprs_body (g : CExpr → String) (d : CDecl) :
    (mapDeclExprs g d).body = d.body.map (rwTextList g) := by
  cases d
  rfl

theorem mapDeclExprs_init (g : CExpr → String) (d : CDecl) :
    (mapDeclExprs g d).init = d.init.map (rwTextList g) := by
  cases d
  rfl

/-- C2 — extraction closure: when every start name resolves, `extract`
succeeds and afterwards the symbol list and symbol set hold exactly the
forward-reachable symbols, and the catalog, both sides of the dependency
graph (keys, and the reverse edge sets), and every file-table entry
mention only reachable symbols. -/
theorem c2_extract_closure (p : PState) (start : List String)
    (hfw : ∀ kv ∈ p.forward, ∀ v ∈ kv.2, v ∈ p.symlist)
    (hst : ∀ kv ∈ p.symtab, kv.2 ∈ p.symlist)
    (hres : ∀ n ∈ start, (lookA p.symtab n).isSome) :
    ∃ q, extract p start = some q ∧
      (∀ s, s ∈ q.symlist ↔ ReachableFrom p start s) ∧
      (∀ s, s ∈ q.symmap ↔ ReachableFrom p start s) ∧
      (∀ n s, lookA q.symtab n = some s → ReachableFrom p start s) ∧
      (∀ kv ∈ q.forward, ReachableFrom p start kv.1) ∧
      (∀ kv ∈ q.reverse, ReachableFrom p start kv.1 ∧
        ∀ v ∈ kv.2, ReachableFrom p start v) ∧
      (∀ kv ∈ q.filetab, ∀ v ∈ kv.2, ReachableFrom p start v) := by
  obtain ⟨roots, hroots⟩ := Option.isSome_iff_exists.mp (resolveAll_isSome hres)
  have hspec := extract_subset_spec p start roots hroots
  have hsubl : ∀ x, x ∈ dfsEx p.forward (fun _ => false) roots [] → x ∈ p.symlist := by
    intro x hx
    obtain ⟨n, hn, r, hl, hp⟩ := (hspec x).mp hx
    exact reaches_mem hfw hp (hst (n, r) (lookA_mem hl))
  refine ⟨trim p (dfsEx p.forward (fun _ => false) roots []), ?_, ?_, ?_, ?_, ?_, ?_, ?_⟩
  · unfold extract
    rw [hroots]
  · intro s
    simp only [trim, List.mem_filter, decide_eq_true_eq]
    constructor
    · rintro ⟨_, hS⟩
      exact (hspec s).mp hS
    · intro hr
      exact ⟨hsubl s ((hspec s).mpr hr), (hspec s).mpr hr⟩
  · intro s
    simp only [trim, List.mem_filter, decide_eq_true_eq]
    constructor
    · rintro ⟨_, hS⟩
      exact (hspec s).mp hS
    · intro hr
      exact ⟨hsubl s ((hspec s).mpr hr), (hspec s).mpr hr⟩
  · intro n s h
    have hmem := lookA_mem h
    simp only [trim, List.mem_filter, decide_eq_true_eq] at hmem
    exact (hspec s).mp hmem.2
  · intro kv hkv
    simp only [trim, List.mem_filter, decide_eq_true_eq] at hkv
    exact (hspec kv.1).mp hkv.2
  · intro kv hkv
    simp only [trim, List.mem_map] at hkv
    obtain ⟨kv0, hkv0, rfl⟩ := hkv
    rw [List.mem_filter] at hkv0
    constructor
    · exact (hspec kv0.1).mp (by simpa using hkv0.2)
    · intro v hv
      simp only [List.mem_filter, decide_eq_true_eq] at hv
      exact (hspec v).mp hv.2
  · intro kv hkv
    simp only [trim, List.mem_map] at hkv
    obtain ⟨kv0, _, rfl⟩ := hkv
    intro v hv
    simp only [List.mem_filter, decide_eq_true_eq] at hv
    exact (hspec v).mp hv.2

/-- C2 — witness at a concrete program: start set `{f}` with `f` calling
`g` and an isolated `h`. -/
theorem c2_extract_closure_witness :
    (∀ kv ∈ pC2.forward, ∀ v ∈ kv.2, v ∈ pC2.symlist) ∧
    (∀ kv ∈ pC2.symtab, kv.2 ∈ pC2.symlist) ∧
    (∀ n ∈ ["f"], (lookA pC2.symtab n).isSome) ∧
    (∃ q, extract pC2 ["f"] = some q ∧
      (∀ s, s ∈ q.symlist ↔ ReachableFrom pC2 ["f"] s) ∧
      (∀ s, s ∈ q.symmap ↔ ReachableFrom pC2 ["f"] s) ∧
      (∀ n s, lookA q.symtab n = some s → ReachableFrom pC2 ["f"] s) ∧
      (∀ kv ∈ q.forward, ReachableFrom pC2 ["f"] kv.1) ∧
      (∀ kv ∈ q.reverse, ReachableFrom pC2 ["f"] kv.1 ∧
        ∀ v ∈ kv.2, ReachableFrom pC2 ["f"] v) ∧
      (∀ kv ∈ q.filetab, ∀ v ∈ kv.2, ReachableFrom pC2 ["f"] v)) := by
  refine ⟨by decide, by decide, by decide, ?_⟩
  exact c2_extract_closure pC2 ["f"] (by decide) (by decide) (by decide)

/-- C3 — graph symmetry: the graph built by `NewProg`'s paired insertions
is symmetric, and `extract`/`trim` preserve symmetry. -/
theorem c3_graph_symmetry :
    (∀ (univ : List Nat) (edges : List (Nat × Nat)),
      (∀ e ∈ edges, e.1 ∈ univ ∧ e.2 ∈ univ) →
      Symm (buildGraph univ edges).1 (buildGraph univ edges).2) ∧
    (∀ (p : PState) (start : List String) (q : PState),
      Symm p.forward p.reverse → extract p start = some q →
      Symm q.forward q.reverse) := by
  constructor
  · intro univ edges he
    unfold buildGraph
    apply buildGraph_fold_symm univ edges _ he
    · intro x hx
      rw [lookA_selfmap]
      simp [hx]
    · intro x hx
      rw [lookA_selfmap]
      simp [hx]
    · intro a b
      unfold getA
      rw [lookA_selfmap, lookA_selfmap]
      by_cases ha : a ∈ univ <;> by_cases hb : b ∈ univ <;> simp [ha, hb]
  · intro p start q hsym hq
    unfold extract at hq
    cases hr : resolveAll p.symtab start with
    | none =>
      rw [hr] at hq
      exact absurd hq (by simp)
    | some roots =>
      rw [hr] at hq
      have hq2 : trim p (dfsEx p.forward (fun _ => false) roots []) = q := by
        simpa using hq
      subst hq2
      have hcl := extract_subset_closed p start roots hr
      intro a b
      have hfwd : getA (trim p (dfsEx p.forward (fun _ => false) roots [])).forward a =
          if a ∈ dfsEx p.forward (fun _ => false) roots [] then getA p.forward a
          else [] := by
        simp only [trim]
        exact getA_filterKey p.forward _ a
      have hrev : getA (trim p (dfsEx p.forward (fun _ => false) roots [])).reverse b =
          if b ∈ dfsEx p.forward (fun _ => false) roots [] then
            (getA p.reverse b).filter
              (fun s => decide (s ∈ dfsEx p.forward (fun _ => false) roots []))
          else [] := by
        simp only [trim]
        unfold getA
        rw [lookA_mapVal (g :=
          fun l : List Nat => List.filter
            (fun s => decide (s ∈ dfsEx p.forward (fun _ => false) roots [])) l)]
        by_cases hb : b ∈ dfsEx p.forward (fun _ => false) roots []
        · rw [lookA_filterKey_pos (P :=
            fun k => decide (k ∈ dfsEx p.forward (fun _ => false) roots []))
            (by simpa using hb), if_pos hb]
          cases lookA p.reverse b <;> rfl
        · rw [lookA_filterKey_neg (P :=
            fun k => decide (k ∈ dfsEx p.forward (fun _ => false) roots []))
            (by simpa using hb), if_neg hb]
          rfl
      rw [hfwd, hrev]
      by_cases ha : a ∈ dfsEx p.forward (fun _ => false) roots []
      · rw [if_pos ha]
        by_cases hb : b ∈ dfsEx p.forward (fun _ => false) roots []
        · rw [if_pos hb]
          simp only [List.mem_filter, decide_eq_true_eq]
          constructor
          · intro h
            exact ⟨(hsym a b).mp h, ha⟩
          · rintro ⟨h, _⟩
            exact (hsym a b).mpr h
        · rw [if_neg hb]
          simp only [List.not_mem_nil, iff_false]
          intro h
          exact hb (hcl a b ha h)
      · rw [if_neg ha]
        by_cases hb : b ∈ dfsEx p.forward (fun _ => false) roots []
        · rw [if_pos hb]
          simp only [List.not_mem_nil, false_iff, List.mem_filter,
            decide_eq_true_eq, not_and]
          intro _ hmem
          exact absurd hmem ha
        · rw [if_neg hb]
          simp

/-- C3 — witness: symmetry of the built graph of `pC3` and of the
extracted program. -/
theorem c3_graph_symmetry_witness :
    (∀ e ∈ [((0 : Nat), (1 : Nat))], e.1 ∈ [0, 1] ∧ e.2 ∈ [0, 1]) ∧
    Symm pC3.forward pC3.reverse ∧
    ∃ q, extract pC3 ["f"] = some q ∧ Symm q.forward q.reverse := by
  have hedges : ∀ e ∈ [((0 : Nat), (1 : Nat))], e.1 ∈ [0, 1] ∧ e.2 ∈ [0, 1] := by
    decide
  have hsymp : Symm pC3.forward pC3.reverse :=
    c3_graph_symmetry.1 [0, 1] [(0, 1)] hedges
  have hex : extract pC3 ["f"] =
      some (trim pC3 (dfsEx pC3.forward (fun _ => false) [0] [])) := by
    unfold extract
    rw [show resolveAll pC3.symtab ["f"] = some [0] from rfl]
  exact ⟨hedges, hsymp,
    ⟨_, hex, c3_graph_symmetry.2 pC3 ["f"] _ hsymp hex⟩⟩

/-- C4 — rename atomicity: for a single pair with the old name a catalog
key and a genuinely new name, the catalog loses the old key, gains the new
key bound to the same symbol identity, and no `Name` expression anywhere in
the tree keeps the old text. -/
theorem c4_rename_atomicity (p : PState) (old nw : String) (s : Nat)
    (hold : lookA p.symtab old = some s) (hne : old ≠ nw) :
    lookA (rename p [(old, nw)]).symtab old = none ∧
    lookA (rename p [(old, nw)]).symtab nw = some s ∧
    (∀ i d, lookA (rename p [(old, nw)]).store i = some d →
      (∀ l, d.body = some l → ∀ e ∈ l, ∀ path sub,
        getPath e path = some sub → sub.op = .name → sub.text ≠ old) ∧
      (∀ l, d.init = some l → ∀ e ∈ l, ∀ path sub,
        getPath e path = some sub → sub.op = .name → sub.text ≠ old)) := by
  have hsymtab : (rename p [(old, nw)]).symtab = putA (delA p.symtab old) nw s := by
    simp [rename, renameSymtab, hold]
  refine ⟨?_, ?_, ?_⟩
  · rw [hsymtab, lookA_putA_ne _ _ hne, lookA_delA_self]
  · rw [hsymtab, lookA_putA_self]
  · intro i d hd
    have hd2 : lookA (mapStoreExprs (renameVisit [(old, nw)])
        (renameDecls [(old, nw)] p.store p.symlist)) i = some d := hd
    unfold mapStoreExprs at hd2
    rw [lookA_mapVal (g := mapDeclExprs (renameVisit [(old, nw)]))] at hd2
    cases h0 : lookA (renameDecls [(old, nw)] p.store p.symlist) i with
    | none =>
      rw [h0] at hd2
      simp at hd2
    | some d0 =>
      rw [h0] at hd2
      have hdd : mapDeclExprs (renameVisit [(old, nw)]) d0 = d := by simpa using hd2
      subst hdd
      constructor
      · intro l hl e he path sub hgp hop
        rw [mapDeclExprs_body] at hl
        cases hb0 : d0.body with
        | none => rw [hb0] at hl; simp at hl
        | some l0 =>
          rw [hb0] at hl
          have hll : rwTextList (renameVisit [(old, nw)]) l0 = l := by simpa using hl
          subst hll
          obtain ⟨e0, _, rfl⟩ := (mem_rwTextList _ l0 e).mp he
          exact rwText_rename_no_old old nw hne e0 path sub hgp hop
      · intro l hl e he path sub hgp hop
        rw [mapDeclExprs_init] at hl
        cases hb0 : d0.init with
        | none => rw [hb0] at hl; simp at hl
        | some l0 =>
          rw [hb0] at hl
          have hll : rwTextList (renameVisit [(old, nw)]) l0 = l := by simpa using hl
          subst hll
          obtain ⟨e0, _, rfl⟩ := (mem_rwTextList _ l0 e).mp he
          exact rwText_rename_no_old old nw hne e0 path sub hgp hop

/-- C4 — witness: rename `f` to `f2` in a program where `f` references
itself. -/
theorem c4_rename_atomicity_witness :
    (lookA pC4.symtab "f" = some 0 ∧ "f" ≠ "f2") ∧
    lookA (rename pC4 [("f", "f2")]).symtab "f" = none ∧
    lookA (rename pC4 [("f", "f2")]).symtab "f2" = some 0 ∧
    (∀ i d, lookA (rename pC4 [("f", "f2")]).store i = some d →
      (∀ l, d.body = some l → ∀ e ∈ l, ∀ path sub,
        getPath e path = some sub → sub.op = .name → sub.text ≠ "f") ∧
      (∀ l, d.init = some l → ∀ e ∈ l, ∀ path sub,
        getPath e path = some sub → sub.op = .name → sub.text ≠ "f")) := by
  have h := c4_rename_atomicity pC4 "f" "f2" 0 rfl (by decide)
  exact ⟨⟨rfl, by decide⟩, h.1, h.2.1, h.2.2⟩

/-- C7 — the definition rewrite of threading: an empty parameter list is a
precondition violation (the Go code indexes `Decls[0]`, a panic), a `void`
first parameter makes the whole list be replaced by the new parameter
alone, and otherwise the new parameter is prepended in front of the
original parameters in their original order. -/
theorem c7_void_param_rewrite (arg0 d : CDecl) :
    (d.ctype.decls = [] → fixDefn arg0 d = none) ∧
    (∀ p0 rest, d.ctype.decls = p0 :: rest →
      (p0.ctype.is .void = true → fixDefn arg0 d = some (d.setDecls [arg0])) ∧
      (p0.ctype.is .void = false →
        fixDefn arg0 d = some (d.setDecls (arg0 :: p0 :: rest)))) := by
  constructor
  · intro h
    simp [fixDefn, h]
  · intro p0 rest h
    constructor
    · intro hv
      simp [fixDefn, h, hv]
    · intro hv
      simp [fixDefn, h, hv]

/-- C7 — witness: a `void`-parameter function, a one-parameter function,
and an empty parameter list. -/
theorem c7_void_param_rewrite_witness :
    ((fnDecl "c" "f1" []).ctype.decls = [voidParam] ∧
      voidParam.ctype.is .void = true ∧
      fixDefn cursymArg (fnDecl "c" "f1" []) =
        some ((fnDecl "c" "f1" []).setDecls [cursymArg])) ∧
    (intParam.ctype.is .void = false ∧
      fixDefn cursymArg (CDecl.mk "f" .auto (.mk .func "" [intParam] none) none none "") =
        some ((CDecl.mk "f" .auto (.mk .func "" [intParam] none) none none "").setDecls
          [cursymArg, intParam])) ∧
    fixDefn cursymArg (CDecl.mk "e" .auto (.mk .func "" [] none) none none "") = none := by
  refine ⟨⟨rfl, rfl, ?_⟩, ⟨rfl, ?_⟩, ?_⟩
  · exact ((c7_void_param_rewrite cursymArg (fnDecl "c" "f1" [])).2 voidParam [] rfl).1 rfl
  · exact ((c7_void_param_rewrite cursymArg
      (CDecl.mk "f" .auto (.mk .func "" [intParam] none) none none "")).2
      intParam [] rfl).2 rfl
  · exact (c7_void_param_rewrite cursymArg
      (CDecl.mk "e" .auto (.mk .func "" [] none) none none "")).1 rfl

/-- C8 — idempotence of emission: printing twice with no transformation in
between produces the same destination files with the same bytes; the stage
number only names the directory. -/
theorem c8_emission_idempotent (p : PState) (filemap : List (String × String))
    (g1 g2 : Nat) :
    ((print p filemap g1).1).2 = ((print ((print p filemap g1).2) filemap g2).1).2 := by
  simp only [print]
  have heq := printSyms_store_lookup filemap p.symlist p.store (initPrinters filemap)
  have hcongr := printSyms_out_congr filemap p.symlist
    (printSyms filemap p.symlist p.store (initPrinters filemap)).2 p.store
    (initPrinters filemap) heq
  rw [hcongr]

/-- C10 — emission does not mutate the program: `printproto` installs
name-blanked parameter copies through the shared type and restores the
original list before returning, and a whole `print` leaves every
declaration of the heap as it was. -/
theorem c10_emission_frame :
    (∀ fn : CDecl, (printproto fn).1 = fn) ∧
    (∀ (p : PState) (filemap : List (String × String)) (g j : Nat),
      lookA ((print p filemap g).2).store j = lookA p.store j) := by
  constructor
  · exact printproto_fst
  · intro p fm g j
    simp only [print]
    exact printSyms_store_lookup fm p.symlist p.store (initPrinters fm) j

/-- C9 — uniform seed accessor: every node the reference-rewrite pass of
`addcursym` fires on gets the one fixed literal `cursym->text`, the same
accessor text for every seed symbol, not a per-symbol field access. -/
theorem c9_uniform_accessor (symtab : List (String × Nat)) (symmap : List Nat)
    (store : List (Nat × CDecl)) (need : List String) (e : CExpr)
    (path : List Step) (sub : CExpr) (hsub : getPath e path = some sub)
    (hhit : CursymHit symtab symmap store need sub) :
    ∃ o, getPath (rwText (cursymVisit symtab symmap store need) e) path = some o ∧
      o.text = "cursym->text" ∧ o.op = sub.op := by
  refine ⟨rwText (cursymVisit symtab symmap store need) sub, ?_, ?_, rwText_op _ _⟩
  · rw [getPath_rwText, hsub]
    rfl
  · rw [rwText_text]
    rcases hhit with ⟨hop, s, d, hls, hld, hneed⟩ |
      ⟨hop, l, id0, d, hl, hx, hm, hld, hneed⟩
    · simp [cursymVisit, hop, hls, hld, hneed]
    · rcases hop with hop | hop <;>
        simp [cursymVisit, hop, hl, hx, hm, hld, hneed]

/-- C9 — witness: a reference to the seed global `firstp` is rewritten to
the same `cursym->text` accessor as references to `curtext`. -/
theorem c9_uniform_accessor_witness :
    (getPath (nameRef "firstp" 11) [] = some (nameRef "firstp" 11) ∧
      CursymHit [("firstp", 11)] [11] [(11, dataDecl "firstp" "f1")]
        ["curtext", "firstp"] (nameRef "firstp" 11)) ∧
    ∃ o, getPath (rwText (cursymVisit [("firstp", 11)] [11]
        [(11, dataDecl "firstp" "f1")] ["curtext", "firstp"])
        (nameRef "firstp" 11)) [] = some o ∧
      o.text = "cursym->text" ∧ o.op = (nameRef "firstp" 11).op := by
  have hhit : CursymHit [("firstp", 11)] [11] [(11, dataDecl "firstp" "f1")]
      ["curtext", "firstp"] (nameRef "firstp" 11) :=
    Or.inl ⟨rfl, 11, dataDecl "firstp" "f1", rfl, rfl, by decide⟩
  exact ⟨⟨rfl, hhit⟩,
    c9_uniform_accessor [("firstp", 11)] [11] [(11, dataDecl "firstp" "f1")]
      ["curtext", "firstp"] (nameRef "firstp" 11) [] (nameRef "firstp" 11) rfl hhit⟩

end SevenLfix

